import Mathlib

/-!
Verification model for the `userexit` library (`src/userexit.py`,
`src/test_userexit.py`, `src/demo.py`).

Text is modelled as `List Char`.  Python class declarations are modelled as a
table (list) of `ClassDecl` records indexed by declaration order; attribute
access follows the C3 method-resolution order, as Python's does.  The
`handle` decorator (the Bridge), `__str__` (the Formatter) and the helper
functions `format_script` / `format_msg` are translated directly from
`src/userexit.py`.
-/

namespace Userexit

/-- Text, modelled as a list of characters. -/
abbrev Str := List Char

/-- The characters stripped by Python `str.strip()` / split by `str.split()`
with no argument: space, tab, newline, carriage return, vertical tab,
form feed. -/
def isWsChar (c : Char) : Bool :=
  c = ' ' || c = '\t' || c = '\n' || c = '\r' || c = '\x0b' || c = '\x0c'

/-- Characters counted as indentation by `textwrap.dedent` (space and tab). -/
def isSpTab (c : Char) : Bool := c = ' ' || c = '\t'

/-- Helper for `splitWs`: accumulate the current word (reversed). -/
def splitWsGo (cur : Str) : Str → List Str
  | [] => if cur.isEmpty then [] else [cur.reverse]
  | c :: rest =>
    if isWsChar c then
      if cur.isEmpty then splitWsGo [] rest else cur.reverse :: splitWsGo [] rest
    else splitWsGo (c :: cur) rest

/-- Python `str.split()` with no argument: whitespace-separated words,
empty words dropped.  This is how `textwrap` extracts the words it re-wraps
(the spec treats `textwrap` as an external collaborator; this models its
documented contract). -/
def splitWs (s : Str) : List Str := splitWsGo [] s

/-- Greedy line filling over a word list: the current line (reversed word
list `cur` of screen length `curLen`) absorbs the next word while
`curLen + 1 + word length` stays within the width. -/
def greedyGo (w : Nat) (cur : List Str) (curLen : Nat) : List Str → List (List Str)
  | [] => [cur.reverse]
  | x :: xs =>
    if curLen + 1 + x.length ≤ w then greedyGo w (x :: cur) (curLen + 1 + x.length) xs
    else cur.reverse :: greedyGo w [x] x.length xs

/-- Group words into greedily filled lines of width `w`. -/
def greedy (w : Nat) : List Str → List (List Str)
  | [] => []
  | x :: xs => greedyGo w [x] x.length xs

/-- Join a list of strings with a separator (Python `sep.join(...)`). -/
def joinSep (sep : Str) : List Str → Str
  | [] => []
  | [x] => x
  | x :: y :: rest => x ++ sep ++ joinSep sep (y :: rest)

/-- Model of `textwrap.fill(s)` at width `w` (the library uses the default
width 70): whitespace-normalised greedy paragraph filling.  Long-word
breaking never triggers on this library's inputs and is not modelled. -/
def fill (w : Nat) (s : Str) : Str :=
  joinSep ['\n'] ((greedy w (splitWs s)).map (joinSep [' ']))

/-- Helper for `splitOnChar`. -/
def splitChGo (c : Char) (cur : Str) : Str → List Str
  | [] => [cur.reverse]
  | x :: rest =>
    if x = c then cur.reverse :: splitChGo c [] rest else splitChGo c (x :: cur) rest

/-- Python `str.split(c)` for a one-character separator (keeps empty parts). -/
def splitOnChar (c : Char) (s : Str) : List Str := splitChGo c [] s

/-- Helper for `splitOnNN`. -/
def splitNNGo (cur : Str) : Str → List Str
  | '\n' :: '\n' :: rest => cur.reverse :: splitNNGo [] rest
  | c :: rest => splitNNGo (c :: cur) rest
  | [] => [cur.reverse]

/-- Python `s.split('\n\n')`: split on blank-line boundaries, leftmost
non-overlapping occurrences, keeping empty parts. -/
def splitOnNN (s : Str) : List Str := splitNNGo [] s

/-- Decidable substring test (`pat in s` in Python). -/
def containsSub (pat : Str) : Str → Bool
  | [] => pat.isEmpty
  | c :: rest => pat.isPrefixOf (c :: rest) || containsSub pat rest

/-- Longest common prefix of two strings. -/
def commonPrefix : Str → Str → Str
  | [], _ => []
  | _, [] => []
  | a :: as, b :: bs => if a = b then a :: commonPrefix as bs else []

/-- Model of `textwrap.dedent`: blank out whitespace-only lines, compute the
margin common to all lines that carry content, and strip it from every line
that starts with it. -/
def dedent (s : Str) : Str :=
  let ls := (splitOnChar '\n' s).map (fun l => if !l.isEmpty && l.all isSpTab then [] else l)
  let indents := (ls.filter (fun l => !(l.dropWhile isSpTab).isEmpty)).map (fun l => l.takeWhile isSpTab)
  let margin := match indents with
    | [] => []
    | i :: rest => rest.foldl commonPrefix i
  let ls2 := if margin.isEmpty then ls
    else ls.map (fun l => if margin.isPrefixOf l then l.drop margin.length else l)
  joinSep ['\n'] ls2

/-- Python `str.strip()`. -/
def stripStr (s : Str) : Str :=
  ((s.dropWhile isWsChar).reverse.dropWhile isWsChar).reverse

/-- `format_script` from `src/userexit.py`:
`textwrap.dedent(s).strip() + '\n'`. -/
def format_script (s : Str) : Str := stripStr (dedent s) ++ ['\n']

/-- The interactive-example marker recognised by `format_msg`. -/
def gtMarker : Str := ['>', '>', '>']

/-- One paragraph of `format_msg`: passed through verbatim when it contains
the interactive-example marker, otherwise re-filled at width 70. -/
def paraRender (p : Str) : Str := if containsSub gtMarker p then p else fill 70 p

/-- `format_msg` from `src/userexit.py`:
`'\n\n'.join(para if '>>>' in para else textwrap.fill(para) for para in s.split('\n\n'))`. -/
def format_msg (s : Str) : Str :=
  joinSep ['\n', '\n'] ((splitOnNN s).map paraRender)

/-- A Python class declaration, restricted to the class attributes that
`src/userexit.py` reads: `exit_status`, `message`, and the two formatting
flags `prefix_name` / `prefix_error` (fields `pfxName` / `pfxError` here).
`parents` lists the declared base classes as indices of earlier table
entries (`[]` means the class derives directly from `Exception`); a `none`
attribute means the class body does not assign it, so ordinary Python
attribute lookup continues along the method-resolution order. -/
structure ClassDecl where
  parents : List Nat
  exit_status : Option Int
  message : Option Str
  pfxName : Option Bool
  pfxError : Option Bool
deriving DecidableEq

/-- A declared program: classes in declaration order.  Python cannot name a
class that does not exist yet, so parents of entry `i` are indices `< i`. -/
abbrev Table := List ClassDecl

/-- Boolean well-formedness of a table: every parent reference points to an
earlier declaration. -/
def wfB (t : Table) : Bool :=
  (List.range t.length).all (fun i =>
    match t[i]? with
    | some d => d.parents.all (fun p => decide (p < i))
    | none => true)

/-- A head `h` is a valid C3 candidate for `ls` when it occurs in no tail. -/
def headOkay (ls : List (List Nat)) (h : Nat) : Bool :=
  ls.all (fun l => !l.tail.contains h)

/-- The first valid C3 candidate head, scanning the lists left to right. -/
def pickHead (ls : List (List Nat)) : Option Nat :=
  (ls.filterMap List.head?).find? (headOkay ls)

/-- C3 linearisation merge, as in Python's MRO computation: repeatedly take
the first head that appears in no tail, remove it everywhere, and recurse;
`none` when no fuel remains or no candidate exists (inconsistent
hierarchy). -/
def mergeC3 : Nat → List (List Nat) → Option (List Nat)
  | 0, _ => none
  | fuel + 1, ls =>
    let ls2 := ls.filter (fun l => !l.isEmpty)
    if ls2.isEmpty then some []
    else
      (pickHead ls2).bind (fun h =>
        (mergeC3 fuel (ls2.map (fun l => l.filter (fun x => !(x == h))))).map
          (fun m => h :: m))

/-- Effectful map used by `mroFuel` (explicit so its congruence lemma is a
plain induction). -/
def mapOpt (f : Nat → Option (List Nat)) : List Nat → Option (List (List Nat))
  | [] => some []
  | x :: xs => do
    let y ← f x
    let ys ← mapOpt f xs
    some (y :: ys)

/-- Python MRO of class `i` in table `t`, with fuel:
`L(C) = C :: merge(L(P1), ..., L(Pn), [P1, ..., Pn])`.  Parent references
`≥ i` cannot arise in Python (a base class must already exist) and are
dropped. -/
def mroFuel (t : Table) : Nat → Nat → Option (List Nat)
  | 0, _ => none
  | fuel + 1, i =>
    (t[i]?).bind (fun d =>
      let ps := d.parents.filter (fun p => decide (p < i))
      (mapOpt (mroFuel t fuel) ps).bind (fun pls =>
        (mergeC3 (((pls ++ [ps]).map List.length).sum + 1) (pls ++ [ps])).map
          (fun m => i :: m)))

/-- Python MRO of class `i`: fuel `i + 1` suffices because parent indices
strictly decrease. -/
def mro (t : Table) (i : Nat) : Option (List Nat) := mroFuel t (i + 1) i

/-- First explicitly assigned attribute along a linearisation (Python
attribute lookup along the MRO; classes beyond the table, such as
`Exception`, carry none of these attributes). -/
def attrAlong (t : Table) (sel : ClassDecl → Option α) : List Nat → Option α
  | [] => none
  | i :: rest =>
    match t[i]? with
    | none => attrAlong t sel rest
    | some d =>
      match sel d with
      | some v => some v
      | none => attrAlong t sel rest

/-- Python class-attribute lookup: search the MRO for the first class whose
body assigns the attribute. -/
def classAttr (t : Table) (c : Nat) (sel : ClassDecl → Option α) : Option α :=
  (mro t c).bind (attrAlong t sel)

/-- `C.exit_status` for class index `c`. -/
def exitStatusOf (t : Table) (c : Nat) : Option Int :=
  classAttr t c (fun d => d.exit_status)

/-- `UserExit` as declared in `src/userexit.py` (table index 0). -/
def ueDecl : ClassDecl :=
  ⟨[], some 0, some "Execution ended normally.".data, some true, some true⟩

/-- `UserAbort` as declared in `src/userexit.py` (table index 1): note the
class body assigns `prefix_error = False`. -/
def uaDecl : ClassDecl :=
  ⟨[0], some 1, some "Execution aborted with an error.".data, none, some false⟩

/-- The table produced by importing `src/userexit.py` alone. -/
def baseT : Table := [ueDecl, uaDecl]

/-- The table produced by importing `src/userexit.py` and then executing the
class declarations of `src/test_userexit.py`, in order:
indices 2..9 are `FooExit`, `FooAbort`, `BarAbort`, `BarAbortVariant`,
`BarAbortVariantB`, `BarAbortVariantC`, `BazAbort`, `QuxAbort`. -/
def testT : Table := baseT ++ [
  ⟨[0], none, some "FooExit".data, none, none⟩,
  ⟨[1], some 80, some "FooAbort".data, none, none⟩,
  ⟨[1], none, some "BarAbort".data, none, none⟩,
  ⟨[4], none, some "A specific type of BarAbort".data, none, none⟩,
  ⟨[4], some 85, some "A specific type of BarAbort B".data, none, none⟩,
  ⟨[4, 1], none, some "A specific type of BarAbort C".data, none, none⟩,
  ⟨[1], none, some "BazAbort".data, none, none⟩,
  ⟨[1], some 127, some "QuxAbort".data, none, none⟩]

/-- Python values that can be stored as positional arguments of a raised
instance and interpolated by `str.format`. -/
inductive PyVal
  | pstr (s : Str)
  | pint (n : Int)
  | pbool (b : Bool)
deriving DecidableEq

/-- Python `str(v)` for the modelled values. -/
def pyToStr : PyVal → Str
  | .pstr s => s
  | .pint n => (toString n).data
  | .pbool b => if b then "True".data else "False".data

/-- Escape one character for Python `repr` of a string quoted with `q`. -/
def escapeCh (q c : Char) : Str :=
  if c = '\\' then ['\\', '\\']
  else if c = q then ['\\', q]
  else if c = '\n' then ['\\', 'n']
  else if c = '\r' then ['\\', 'r']
  else if c = '\t' then ['\\', 't']
  else [c]

/-- Python `repr(v)` for the modelled values: strings quoted (single quotes
unless the string contains one and no double quote), booleans as their
keywords, integers in decimal. -/
def pyRepr : PyVal → Str
  | .pstr s =>
    let q := if s.contains '\x27' && !s.contains '"' then '"' else '\x27'
    q :: (s.flatMap (escapeCh q) ++ [q])
  | .pint n => (toString n).data
  | .pbool b => if b then "True".data else "False".data

/-- State of `str.format` interpolation: the automatic field counter and
whether automatic / manual positional numbering has been used (Python
forbids mixing the two). -/
structure FmtSt where
  auto : Nat
  usedAuto : Bool
  usedManual : Bool
deriving DecidableEq

/-- Digits test. -/
def isDigitCh (c : Char) : Bool := '0' ≤ c && c ≤ '9'

/-- Parse a non-empty all-digit string. -/
def parseNat? (s : Str) : Option Nat :=
  if !s.isEmpty && s.all isDigitCh then
    some (s.foldl (fun a c => a * 10 + (c.toNat - 48)) 0)
  else none

/-- Split a replacement field at the first `!` (field name, conversion). -/
def splitBang? : Str → Option (Str × Str)
  | [] => none
  | c :: rest =>
    if c = '!' then some ([], rest)
    else (splitBang? rest).map (fun p => (c :: p.1, p.2))

/-- Recognise a field of the shape `argv[k]`. -/
def argvField? (f : Str) : Option Nat :=
  if "argv[".data.isPrefixOf f then
    let rest := f.drop 5
    match rest.getLast? with
    | some ']' => parseNat? rest.dropLast
    | _ => none
  else none

/-- Evaluate one replacement field of `str.format`, as called in
`UserExit.__str__`: positional arguments are the instance's `self.args`,
and the named arguments are `argv=sys.argv` (and `self=self`, which no
template in the repository uses).  Supported: automatic `{}` / explicit
`{k}` positional fields, `argv[k]`, and the `!r` / `!s` conversions.
Anything else would raise inside `format` and yields `none`. -/
def evalField (args : List PyVal) (argv : List Str) (st : FmtSt) (fc : Str) :
    Option (Str × FmtSt) :=
  let fcp := match splitBang? fc with
    | some p => p
    | none => (fc, [])
  let f := fcp.1
  let render : PyVal → Option Str :=
    match splitBang? fc with
    | none => fun v => some (pyToStr v)
    | some p =>
      if p.2 = ['r'] then fun v => some (pyRepr v)
      else if p.2 = ['s'] then fun v => some (pyToStr v)
      else fun _ => none
  match argvField? f with
  | some k => do
    let a ← argv[k]?
    let r ← render (.pstr a)
    some (r, st)
  | none =>
    if f.isEmpty then
      if st.usedManual then none
      else do
        let v ← args[st.auto]?
        let r ← render v
        some (r, ⟨st.auto + 1, true, st.usedManual⟩)
    else
      match parseNat? f with
      | some k =>
        if st.usedAuto then none
        else do
          let v ← args[k]?
          let r ← render v
          some (r, ⟨st.auto, st.usedAuto, true⟩)
      | none => none

/-- Interpreter for `str.format`, with fuel (each step consumes at least one
character, so `length + 1` fuel at entry suffices).  `\x7b\x7b` / `\x7d\x7d`
are brace escapes; a lone closing brace is an error, as in Python. -/
def formatGo (args : List PyVal) (argv : List Str) : Nat → FmtSt → Str → Option Str
  | 0, _, _ => none
  | _ + 1, _, [] => some []
  | fuel + 1, st, '\x7b' :: '\x7b' :: rest =>
    (formatGo args argv fuel st rest).map (fun r => '\x7b' :: r)
  | fuel + 1, st, '\x7d' :: '\x7d' :: rest =>
    (formatGo args argv fuel st rest).map (fun r => '\x7d' :: r)
  | _ + 1, _, '\x7d' :: _ => none
  | fuel + 1, st, '\x7b' :: rest =>
    let fld := rest.takeWhile (fun c => !(c == '\x7d'))
    match rest.drop fld.length with
    | '\x7d' :: rest2 => do
      let rs ← evalField args argv st fld
      let tl ← formatGo args argv fuel rs.2 rest2
      some (rs.1 ++ tl)
    | _ => none
  | fuel + 1, st, c :: rest =>
    (formatGo args argv fuel st rest).map (fun r => c :: r)

/-- `tpl.format(*args, self=self, argv=sys.argv)` as used by
`UserExit.__str__`. -/
def pyFormat (tpl : Str) (args : List PyVal) (argv : List Str) : Option Str :=
  formatGo args argv (tpl.length + 1) ⟨0, false, false⟩ tpl

/-- A raised instance: the class it instantiates and the positional
arguments stored by `Exception.__init__` (`self.args`). -/
structure Instance where
  cls : Nat
  args : List PyVal
deriving DecidableEq

/-- The template fragment `"{argv[0]}: "` prepended when `prefix_name`
holds. -/
def argvTpl : Str := "{argv[0]}: ".data

/-- The fragment `"error: "` prepended when `prefix_error` holds and the
exit status is nonzero. -/
def errPrefixStr : Str := "error: ".data

/-- The body of `UserExit.__str__` up to (and including) the `.format` call:
assemble the template from the prefixes and `format_script(self.message)`,
then interpolate.  `none` models an exception escaping `__str__` (missing
attribute or a bad template). -/
def pyStrRaw (t : Table) (inst : Instance) (argv : List Str) : Option Str := do
  let pn ← classAttr t inst.cls (fun d => d.pfxName)
  let pe ← classAttr t inst.cls (fun d => d.pfxError)
  let es ← classAttr t inst.cls (fun d => d.exit_status)
  let msg ← classAttr t inst.cls (fun d => d.message)
  let tpl := (if pn then argvTpl else []) ++
    (if pe && !(es == 0) then errPrefixStr else []) ++ format_script msg
  pyFormat tpl inst.args argv

/-- `str(ex)` for a raised instance: `format_msg` applied to the
interpolated template, exactly as `UserExit.__str__` returns it. -/
def pyStr (t : Table) (inst : Instance) (argv : List Str) : Option Str :=
  (pyStrRaw t inst argv).map format_msg

/-- An exception value: an instance of a table class, or any other Python
exception (identified by an opaque tag). -/
inductive Exc
  | variant (inst : Instance)
  | other (tag : Nat)
deriving DecidableEq

/-- The behaviour of one invocation of the wrapped callable: it returns a
value (possibly `none`, Python's `None`) or raises. -/
inductive CallResult
  | ret (v : Option PyVal)
  | exc (e : Exc)
deriving DecidableEq

/-- Observable outcome of calling the wrapped entry point: a normal return,
process termination with a status (`raise SystemExit(n)` reaching the top
level), or an exception propagating out unchanged. -/
inductive Outcome
  | ret (v : Option PyVal)
  | exited (n : Int)
  | raised (e : Exc)
deriving DecidableEq

/-- Output channels of the process.  `print` with no `file` argument writes
to `sys.stdout`. -/
inductive Channel
  | stdout
  | stderr
deriving DecidableEq

/-- One write performed during the call. -/
structure WriteEv where
  chan : Channel
  text : Str
deriving DecidableEq

/-- `except UserExit` applies when the raised instance's class has
`UserExit` (table index 0) in its MRO. -/
def isUserExit (t : Table) (c : Nat) : Bool :=
  match mro t c with
  | some l => l.contains 0
  | none => false

/-- Tag for an exception raised by `str(ex)` inside the handler. -/
def strErrorTag : Nat := 1001

/-- Tag for the `AttributeError` raised if `ex.exit_status` were missing. -/
def attrErrorTag : Nat := 1002

/-- Newline appended by `print`. -/
def nlStr : Str := ['\n']

/-- The Bridge: `UserExit.handle` from `src/userexit.py`.  The wrapper
`inner` calls the function, discarding its result (the `try` body is a bare
call, and `inner` has no `return`, so it returns `None`); an instance of a
`UserExit` descendant is caught, printed to standard output (`print(ex)`),
and converted into `raise SystemExit(ex.exit_status)`; every other
exception propagates unchanged with no write. -/
def handle (t : Table) (argv : List Str) (r : CallResult) : Outcome × List WriteEv :=
  match r with
  | .ret _ => (.ret none, [])
  | .exc e =>
    match e with
    | .other _ => (.raised e, [])
    | .variant inst =>
      if isUserExit t inst.cls then
        match pyStr t inst argv with
        | none => (.raised (.other strErrorTag), [])
        | some s =>
          match exitStatusOf t inst.cls with
          | some n => (.exited n, [⟨.stdout, s ++ nlStr⟩])
          | none => (.raised (.other attrErrorTag), [⟨.stdout, s ++ nlStr⟩])
      else (.raised e, [])

/-- A diamond hierarchy expressible in Python: `A(UserExit)` with no
explicit status, `B(UserExit)` with `exit_status = 5`, and `X(A, B)` with
neither an explicit status nor `UserAbort` among its parents. -/
def diaT : Table := baseT ++ [
  ⟨[0], none, some "A".data, none, none⟩,
  ⟨[0], some 5, some "B".data, none, none⟩,
  ⟨[2, 3], none, some "X".data, none, none⟩]

/-- MRO of index 0 in any table whose entry 0 is `ueDecl`. -/
lemma mro0_of (t : Table) (h : t[0]? = some ueDecl) : mro t 0 = some [0] := by
  simp [mro, mroFuel, h, ueDecl, mapOpt, mergeC3]

/-- Exit status of index 0 in any table whose entry 0 is `ueDecl`. -/
lemma es0_of (t : Table) (h : t[0]? = some ueDecl) : exitStatusOf t 0 = some 0 := by
  simp [exitStatusOf, classAttr, mro0_of t h, attrAlong, h, ueDecl]

/-- MRO of index 1 in any table whose entries 0 and 1 are the builtins. -/
lemma mro1_of (t : Table) (h0 : t[0]? = some ueDecl) (h1 : t[1]? = some uaDecl) :
    mro t 1 = some [1, 0] := by
  simp [mro, mroFuel, h0, h1, ueDecl, uaDecl, mapOpt, mergeC3, pickHead, headOkay]

/-- Exit status of index 1 in any table whose entries 0 and 1 are the
builtins. -/
lemma es1_of (t : Table) (h0 : t[0]? = some ueDecl) (h1 : t[1]? = some uaDecl) :
    exitStatusOf t 1 = some 1 := by
  simp [exitStatusOf, classAttr, mro1_of t h0 h1, attrAlong, h1, uaDecl]

/-- C6: `UserExit.exit_status == 0` and `UserAbort.exit_status == 1` in
every table that extends the two builtin declarations, however many further
variants are declared after them and whatever statuses those take. -/
theorem builtin_statuses_fixed (ext : Table) :
    exitStatusOf (baseT ++ ext) 0 = some 0 ∧ exitStatusOf (baseT ++ ext) 1 = some 1 := by
  have h0 : (baseT ++ ext)[0]? = some ueDecl := by
    rw [List.getElem?_append_left (by decide)]; rfl
  have h1 : (baseT ++ ext)[1]? = some uaDecl := by
    rw [List.getElem?_append_left (by decide)]; rfl
  exact ⟨es0_of _ h0, es1_of _ h0 h1⟩

/-- C1: the code performs no automatic allocation.  In the hierarchy of
`src/test_userexit.py`, `BarAbort` (index 4), `BarAbortVariantC` (index 7)
and `BazAbort` (index 8) — the variants the tests expect to be
auto-assigned 79, 81 and 82 — all inherit `UserAbort`'s status 1, so they
collide with each other and with the builtin reserved status 1. -/
theorem exit_statuses_not_auto_allocated :
    exitStatusOf testT 4 = some 1 ∧ exitStatusOf testT 7 = some 1 ∧
    exitStatusOf testT 8 = some 1 ∧ exitStatusOf testT 1 = some 1 := by decide

/-- C5: explicitly assigned statuses are exact — `QuxAbort` (index 9) gets
127 even though 127 is outside any safe pool, `FooAbort` (index 3) gets 80
— but nothing is ever removed from a pool: no pool exists, and `BazAbort`
(index 8), which `src/test_userexit.py:87` expects to be auto-assigned 82
because 80 and 85 were reserved, instead inherits status 1. -/
theorem manual_status_exact_eval :
    exitStatusOf testT 9 = some 127 ∧ exitStatusOf testT 3 = some 80 ∧
    exitStatusOf testT 8 = some 1 := by decide

/-- C7 counterexample: the wrapper returns `None`, not the wrapped
callable's value — `inner` calls `fn(*args, **kwargs)` as a bare statement
and has no `return`. -/
theorem bridge_return_value_cex :
    handle baseT ["prog".data] (.ret (some (.pint 42))) = (.ret none, []) ∧
    Outcome.ret none ≠ Outcome.ret (some (.pint 42)) := by decide

/-- C7 amended: for every call where the wrapped callable returns normally,
the Bridge-wrapped callable returns `None`, discarding the value. -/
theorem bridge_returns_none (t : Table) (argv : List Str) (v : Option PyVal) :
    handle t argv (.ret v) = (.ret none, []) := rfl

/-- C3 counterexample: `UserAbort`'s class body assigns
`prefix_error = False` (not `True` as claimed), and the rendered message of
a raised `UserAbort` contains no `"error: "` prefix. -/
theorem abort_error_prefix_cex :
    classAttr baseT 1 (fun d => d.pfxError) = some false ∧
    some false ≠ some true ∧
    pyStr baseT ⟨1, []⟩ ["prog".data] =
      some "prog: Execution aborted with an error.".data ∧
    containsSub errPrefixStr "prog: Execution aborted with an error.".data = false := by
  decide

/-- C3 amended: the `Abort` root has `prefix_error` false, so even though
its exit status 1 is nonzero, the Formatter's output for a raised `Abort`
instance carries the program-name prefix but no `"error: "` prefix. -/
theorem abort_error_prefix_amended :
    exitStatusOf baseT 1 = some 1 ∧ (1 : Int) ≠ 0 ∧
    classAttr baseT 1 (fun d => d.pfxError) = some false ∧
    pyStr baseT ⟨1, []⟩ ["prog".data] =
      some "prog: Execution aborted with an error.".data ∧
    "prog: ".data.isPrefixOf "prog: Execution aborted with an error.".data = true ∧
    containsSub errPrefixStr "prog: Execution aborted with an error.".data = false := by
  decide

/-- C9 counterexample: the Bridge's single write goes to standard output
(`print(ex)` with no `file=` argument), which is the primary data channel,
not the diagnostic stream. -/
theorem bridge_stdout_cex :
    (handle testT ["prog".data] (.exc (.variant ⟨1, []⟩))).2 =
      [⟨Channel.stdout, "prog: Execution aborted with an error.\n".data⟩] ∧
    Channel.stdout ≠ Channel.stderr := by decide

/-- C9 amended: when the Bridge intercepts a raised variant, its single
formatted write goes to the standard output stream — the primary data
channel — and the diagnostic stream receives nothing, so piped primary
output does receive the failure message. -/
theorem bridge_writes_stdout (t : Table) (argv : List Str) (inst : Instance) (s : Str)
    (h1 : isUserExit t inst.cls = true) (h2 : pyStr t inst argv = some s) :
    (handle t argv (.exc (.variant inst))).2 = [⟨Channel.stdout, s ++ nlStr⟩] ∧
    ((handle t argv (.exc (.variant inst))).2.filter
      (fun w => w.chan == Channel.stderr)) = [] := by
  cases h3 : exitStatusOf t inst.cls with
  | none => simp [handle, h1, h2, h3, List.filter]
  | some n => simp [handle, h1, h2, h3, List.filter]

/-- C9 amended witness at `BazAbort` raised under `argv = ["prog"]`. -/
theorem bridge_writes_stdout_witness :
    (handle testT ["prog".data] (.exc (.variant ⟨8, []⟩))).2 =
      [⟨Channel.stdout, "prog: BazAbort\n".data⟩] :=
  (bridge_writes_stdout testT ["prog".data] ⟨8, []⟩ "prog: BazAbort".data
    (by decide) (by decide)).1

/-- C2: the Bridge captures every raised instance of a `UserExit`
descendant, writes the formatted message (plus the newline `print`
appends), and terminates the process with exactly that variant's
exit status; any exception that is not a declared variant propagates
unchanged with no write. -/
theorem bridge_handles_variants (t : Table) (argv : List Str) :
    (∀ inst s n, isUserExit t inst.cls = true →
        pyStr t inst argv = some s →
        exitStatusOf t inst.cls = some n →
        handle t argv (.exc (.variant inst)) =
          (.exited n, [⟨Channel.stdout, s ++ nlStr⟩])) ∧
    (∀ inst, isUserExit t inst.cls = false →
        handle t argv (.exc (.variant inst)) = (.raised (.variant inst), [])) ∧
    (∀ tag, handle t argv (.exc (.other tag)) = (.raised (.other tag), [])) := by
  refine ⟨?_, ?_, ?_⟩
  · intro inst s n h1 h2 h3
    simp [handle, h1, h2, h3]
  · intro inst h1
    simp [handle, h1]
  · intro tag
    rfl

/-- C2 witness: `FooAbort` raised under `argv = ["prog"]` exits with 80
after printing its message to stdout, and a foreign exception propagates. -/
theorem bridge_handles_variants_witness :
    handle testT ["prog".data] (.exc (.variant ⟨3, []⟩)) =
      (.exited 80, [⟨Channel.stdout, "prog: FooAbort\n".data⟩]) ∧
    handle testT ["prog".data] (.exc (.other 5)) = (.raised (.other 5), []) :=
  ⟨(bridge_handles_variants testT ["prog".data]).1 ⟨3, []⟩ "prog: FooAbort".data 80
      (by decide) (by decide) (by decide),
   (bridge_handles_variants testT ["prog".data]).2.2 5⟩

/-- C10: rendering is deterministic and read-only — the embedding of
`UserExit.__str__` is a pure function of the declared class table, the
raised instance (variant and stored positional arguments) and the process
argument vector (`sys.argv`, its only ambient read), so equal inputs give
character-for-character equal output. -/
theorem formatter_deterministic (t : Table) (i1 i2 : Instance) (a1 a2 : List Str)
    (h1 : i1 = i2) (h2 : a1 = a2) : pyStr t i1 a1 = pyStr t i2 a2 := by
  rw [h1, h2]

/-- C10 witness: two renderings of the same raised `UserAbort` under the
same argument vector coincide. -/
theorem formatter_deterministic_witness :
    pyStr baseT ⟨1, []⟩ ["prog".data] = pyStr baseT ⟨1, []⟩ ["prog".data] :=
  formatter_deterministic baseT ⟨1, []⟩ ⟨1, []⟩ ["prog".data] ["prog".data] rfl rfl

/-- C4 counterexample: class `X` (index 4 of `diaT`) declares parents
`[A, B]` with `A` first, has no explicit status, and does not list
`UserAbort` among its parents; Python's MRO lookup nevertheless takes `B`'s
explicit 5 rather than `A`'s inherited 0, so `X.exit_status` differs from
its first declared parent's. -/
theorem inherit_first_parent_cex :
    wfB diaT = true ∧
    diaT[4]? = some ⟨[2, 3], none, some "X".data, none, none⟩ ∧
    (1 : Nat) ∉ [2, 3] ∧
    exitStatusOf diaT 4 = some 5 ∧
    exitStatusOf diaT 2 = some 0 ∧
    (some (5 : Int)) ≠ (some (0 : Int)) := by decide

/-- Every word produced by `splitWsGo` is non-empty and whitespace-free,
provided the accumulator is whitespace-free. -/
lemma splitWsGo_sound : ∀ (s cur : Str), (∀ c ∈ cur, isWsChar c = false) →
    ∀ w ∈ splitWsGo cur s, w ≠ [] ∧ ∀ c ∈ w, isWsChar c = false := by
  intro s
  induction s with
  | nil =>
    intro cur hc w hw
    simp only [splitWsGo] at hw
    by_cases h : cur.isEmpty
    · simp [h] at hw
    · simp [h] at hw
      subst hw
      refine ⟨by simpa using h, ?_⟩
      intro c hcw
      exact hc c (by simpa using hcw)
  | cons a rest ih =>
    intro cur hc w hw
    simp only [splitWsGo] at hw
    by_cases ha : isWsChar a
    · rw [if_pos ha] at hw
      by_cases h : cur.isEmpty
      · rw [if_pos h] at hw
        exact ih [] (by simp) w hw
      · rw [if_neg h] at hw
        rcases List.mem_cons.mp hw with h1 | h1
        · subst h1
          refine ⟨by simpa using h, ?_⟩
          intro c hcw
          exact hc c (by simpa using hcw)
        · exact ih [] (by simp) w h1
    · rw [if_neg ha] at hw
      refine ih (a :: cur) ?_ w hw
      intro c hcm
      rcases List.mem_cons.mp hcm with h1 | h1
      · subst h1
        simpa using ha
      · exact hc c h1

/-- Every word of `splitWs s` is non-empty and whitespace-free. -/
lemma splitWs_sound (s : Str) : ∀ w ∈ splitWs s, w ≠ [] ∧ ∀ c ∈ w, isWsChar c = false :=
  splitWsGo_sound s [] (by simp)

/-- Groups produced by `greedyGo` are non-empty and drawn from the
accumulator and the remaining words. -/
lemma greedyGo_sound (P : Str → Prop) : ∀ (ws : List Str) (w : Nat) (cur : List Str) (n : Nat),
    (∀ x ∈ cur, P x) → (∀ x ∈ ws, P x) → cur ≠ [] →
    ∀ g ∈ greedyGo w cur n ws, g ≠ [] ∧ ∀ x ∈ g, P x := by
  intro ws
  induction ws with
  | nil =>
    intro w cur n hcur _ hcne g hg
    simp only [greedyGo, List.mem_singleton] at hg
    subst hg
    exact ⟨by simpa using hcne, fun x hx => hcur x (by simpa using hx)⟩
  | cons a ws2 ih =>
    intro w cur n hcur hws hcne g hg
    simp only [greedyGo] at hg
    by_cases hfit : n + 1 + a.length ≤ w
    · rw [if_pos hfit] at hg
      refine ih w (a :: cur) _ ?_ (fun x hx => hws x (List.mem_cons_of_mem _ hx)) (by simp) g hg
      intro x hx
      rcases List.mem_cons.mp hx with h1 | h1
      · subst h1
        exact hws _ (List.mem_cons_self _ _)
      · exact hcur x h1
    · rw [if_neg hfit] at hg
      rcases List.mem_cons.mp hg with h1 | h1
      · subst h1
        exact ⟨by simpa using hcne, fun x hx => hcur x (by simpa using hx)⟩
      · refine ih w [a] _ ?_ (fun x hx => hws x (List.mem_cons_of_mem _ hx)) (by simp) g h1
        intro x hx
        rcases List.mem_cons.mp hx with h2 | h2
        · subst h2
          exact hws _ (List.mem_cons_self _ _)
        · simp at h2

/-- `greedyGo` never returns an empty group list. -/
lemma greedyGo_ne_nil : ∀ (ws : List Str) (w : Nat) (cur : List Str) (n : Nat),
    greedyGo w cur n ws ≠ [] := by
  intro ws
  induction ws with
  | nil => intro w cur n; simp [greedyGo]
  | cons a ws2 ih =>
    intro w cur n
    simp only [greedyGo]
    by_cases hfit : n + 1 + a.length ≤ w
    · rw [if_pos hfit]; exact ih w _ _
    · rw [if_neg hfit]; simp

/-- Groups produced by `greedy` are non-empty lists of input words. -/
lemma greedy_sound (P : Str → Prop) (w : Nat) (ws : List Str) (h : ∀ x ∈ ws, P x) :
    ∀ g ∈ greedy w ws, g ≠ [] ∧ ∀ x ∈ g, P x := by
  cases ws with
  | nil => intro g hg; simp [greedy] at hg
  | cons a ws2 =>
    refine greedyGo_sound P ws2 w [a] a.length ?_
      (fun x hx => h x (List.mem_cons_of_mem _ hx)) (by simp)
    intro x hx
    rcases List.mem_cons.mp hx with h1 | h1
    · subst h1
      exact h _ (List.mem_cons_self _ _)
    · simp at h1

/-- `joinSep` of a list whose last element is non-empty is non-empty and
ends with that element's last character. -/
lemma joinSep_getLast (sep : Str) : ∀ (ls : List Str) (a : Str),
    ls.getLast? = some a → a ≠ [] →
    joinSep sep ls ≠ [] ∧ (joinSep sep ls).getLast? = a.getLast? := by
  intro ls
  induction ls with
  | nil => intro a h _; simp at h
  | cons x xs ih =>
    intro a h ha
    cases xs with
    | nil =>
      simp only [List.getLast?_singleton, Option.some.injEq] at h
      subst h
      exact ⟨ha, rfl⟩
    | cons y rest =>
      have h2 : (y :: rest).getLast? = some a := by
        simpa only [List.getLast?_cons_cons] using h
      obtain ⟨hne, hlast⟩ := ih a h2 ha
      have hj : joinSep sep (x :: y :: rest) = (x ++ sep) ++ joinSep sep (y :: rest) := by
        simp [joinSep, List.append_assoc]
      rw [hj]
      constructor
      · simp [hne]
      · rw [List.getLast?_append_of_ne_nil _ hne, hlast]

/-- `fill` of a text with at least one word is non-empty and its last
character is not whitespace (in particular, `textwrap.fill` output never
ends with a line break). -/
lemma fill_getLast (w : Nat) (s : Str) (h : splitWs s ≠ []) :
    fill w s ≠ [] ∧ ∀ c, (fill w s).getLast? = some c → isWsChar c = false := by
  have hgs : greedy w (splitWs s) ≠ [] := by
    cases hws : splitWs s with
    | nil => exact absurd hws h
    | cons a ws2 => simp only [greedy]; exact greedyGo_ne_nil ws2 w [a] a.length
  obtain ⟨glast, hglast⟩ : ∃ g, (greedy w (splitWs s)).getLast? = some g := by
    cases hg : (greedy w (splitWs s)).getLast? with
    | none => exact absurd (List.getLast?_eq_none_iff.mp hg) hgs
    | some g => exact ⟨g, rfl⟩
  have hgmem : glast ∈ greedy w (splitWs s) := by
    obtain ⟨hh, he⟩ := List.mem_getLast?_eq_getLast (l := greedy w (splitWs s)) hglast
    rw [he]
    exact List.getLast_mem hh
  have hgood := greedy_sound (fun x => x ≠ [] ∧ ∀ c ∈ x, isWsChar c = false) w
    (splitWs s) (splitWs_sound s) glast hgmem
  obtain ⟨hgne, hgwords⟩ := hgood
  obtain ⟨lw, hlw⟩ : ∃ lw, glast.getLast? = some lw := by
    cases hg : glast.getLast? with
    | none => exact absurd (List.getLast?_eq_none_iff.mp hg) hgne
    | some lw => exact ⟨lw, rfl⟩
  have hlwmem : lw ∈ glast := by
    obtain ⟨hh, he⟩ := List.mem_getLast?_eq_getLast (l := glast) hlw
    rw [he]
    exact List.getLast_mem hh
  obtain ⟨hlwne, hlwws⟩ := hgwords lw hlwmem
  obtain ⟨hline_ne, hline_last⟩ := joinSep_getLast [' '] glast lw hlw hlwne
  have hmap : ((greedy w (splitWs s)).map (joinSep [' '])).getLast? =
      some (joinSep [' '] glast) := by
    rw [List.getLast?_map, hglast]
    rfl
  obtain ⟨hfne, hflast⟩ :=
    joinSep_getLast ['\n'] ((greedy w (splitWs s)).map (joinSep [' ']))
      (joinSep [' '] glast) hmap hline_ne
  refine ⟨hfne, ?_⟩
  intro c hc
  rw [show fill w s = joinSep ['\n'] ((greedy w (splitWs s)).map (joinSep [' '])) from rfl,
    hflast, hline_last] at hc
  obtain ⟨c2, hc2⟩ : ∃ c2, lw.getLast? = some c2 := by
    cases hg : lw.getLast? with
    | none => exact absurd (List.getLast?_eq_none_iff.mp hg) hlwne
    | some c2 => exact ⟨c2, rfl⟩
  rw [hc2] at hc
  have h3 : c2 = c := Option.some.inj hc
  have hcm : c2 ∈ lw := by
    obtain ⟨hh, he⟩ := List.mem_getLast?_eq_getLast (l := lw) hc2
    rw [he]
    exact List.getLast_mem hh
  rw [← h3]
  exact hlwws c2 hcm

/-- When the last paragraph of the interpolated text contains no
interactive-example marker and at least one word, `format_msg` output is
non-empty and does not end with a line break. -/
lemma format_msg_getLast (s lp : Str) (hlp : (splitOnNN s).getLast? = some lp)
    (h1 : containsSub gtMarker lp = false) (h2 : splitWs lp ≠ []) :
    format_msg s ≠ [] ∧ (format_msg s).getLast? ≠ some '\n' := by
  obtain ⟨hfne, hfl⟩ := fill_getLast 70 lp h2
  have hpr : paraRender lp = fill 70 lp := by simp [paraRender, h1]
  have hmap : ((splitOnNN s).map paraRender).getLast? = some (paraRender lp) := by
    rw [List.getLast?_map, hlp]
    rfl
  obtain ⟨hne, hlast⟩ := joinSep_getLast ['\n', '\n'] ((splitOnNN s).map paraRender)
    (paraRender lp) hmap (by rw [hpr]; exact hfne)
  refine ⟨hne, ?_⟩
  rw [show format_msg s = joinSep ['\n', '\n'] ((splitOnNN s).map paraRender) from rfl,
    hlast, hpr]
  intro hcon
  have := hfl '\n' hcon
  simp [isWsChar] at this

/-- C8 counterexample: the Formatter's output for a raised `UserAbort`
under `argv = ["prog"]` ends with no line break at all (the re-filled final
paragraph drops the template's trailing newline), not with exactly one. -/
theorem formatter_trailing_newline_cex :
    pyStr baseT ⟨1, []⟩ ["prog".data] =
      some "prog: Execution aborted with an error.".data ∧
    "prog: Execution aborted with an error.".data.getLast? ≠ some '\n' := by decide

/-- C8 amended: whenever the final paragraph of the interpolated text
carries no interactive-example marker and at least one word, the
Formatter's own output (`__str__`) ends with no line break; the single
trailing line break the user sees is the one `print` appends in the
Bridge, and appending it yields exactly one trailing break. -/
theorem formatter_no_trailing_newline (t : Table) (inst : Instance) (argv : List Str)
    (txt s lp : Str) (hraw : pyStrRaw t inst argv = some txt)
    (hs : pyStr t inst argv = some s)
    (hlp : (splitOnNN txt).getLast? = some lp)
    (h1 : containsSub gtMarker lp = false) (h2 : splitWs lp ≠ []) :
    s.getLast? ≠ some '\n' ∧ (s ++ nlStr).getLast? = some '\n' ∧
    (s ++ nlStr).dropLast = s := by
  have hs2 : s = format_msg txt := by
    rw [show pyStr t inst argv = (pyStrRaw t inst argv).map format_msg from rfl,
      hraw] at hs
    exact (Option.some.injEq _ _ ▸ hs).symm
  obtain ⟨hne, hlast⟩ := format_msg_getLast txt lp hlp h1 h2
  subst hs2
  exact ⟨hlast, List.getLast?_concat _, List.dropLast_concat⟩

/-- C8 amended witness at a raised `UserAbort` under `argv = ["prog"]`. -/
theorem formatter_no_trailing_newline_witness :
    pyStr baseT ⟨1, []⟩ ["prog".data] =
      some "prog: Execution aborted with an error.".data ∧
    "prog: Execution aborted with an error.".data.getLast? ≠ some '\n' ∧
    ("prog: Execution aborted with an error.".data ++ nlStr).getLast? = some '\n' :=
  ⟨by decide,
   (formatter_no_trailing_newline baseT ⟨1, []⟩ ["prog".data]
      "prog: Execution aborted with an error.\n".data
      "prog: Execution aborted with an error.".data
      "prog: Execution aborted with an error.\n".data
      (by decide) (by decide) (by decide) (by decide) (by decide)).1,
   (formatter_no_trailing_newline baseT ⟨1, []⟩ ["prog".data]
      "prog: Execution aborted with an error.\n".data
      "prog: Execution aborted with an error.".data
      "prog: Execution aborted with an error.\n".data
      (by decide) (by decide) (by decide) (by decide) (by decide)).2.1⟩

/-- Unfolding lemma for `mergeC3` at positive fuel. -/
lemma mergeC3_succ (fuel : Nat) (ls : List (List Nat)) :
    mergeC3 (fuel + 1) ls =
      (if (ls.filter (fun l => !l.isEmpty)).isEmpty then some []
       else (pickHead (ls.filter (fun l => !l.isEmpty))).bind (fun h =>
         (mergeC3 fuel ((ls.filter (fun l => !l.isEmpty)).map
           (fun l => l.filter (fun x => !(x == h))))).map (fun m => h :: m))) := rfl

/-- Unfolding lemma for `mroFuel` at positive fuel. -/
lemma mroFuel_succ (t : Table) (fuel i : Nat) :
    mroFuel t (fuel + 1) i =
      (t[i]?).bind (fun d =>
        (mapOpt (mroFuel t fuel) (d.parents.filter (fun p => decide (p < i)))).bind
          (fun pls =>
            (mergeC3 (((pls ++ [d.parents.filter (fun p => decide (p < i))]).map
                List.length).sum + 1)
              (pls ++ [d.parents.filter (fun p => decide (p < i))])).map
              (fun m => i :: m))) := rfl

/-- `mapOpt` congruence on the mapped function. -/
lemma mapOpt_congr (f g : Nat → Option (List Nat)) : ∀ l : List Nat,
    (∀ x ∈ l, f x = g x) → mapOpt f l = mapOpt g l := by
  intro l
  induction l with
  | nil => intro _; rfl
  | cons x xs ih =>
    intro h
    simp only [mapOpt]
    rw [h x (List.mem_cons_self _ _), ih (fun y hy => h y (List.mem_cons_of_mem _ hy))]

/-- Every output list of a successful `mapOpt` comes from some input. -/
lemma mapOpt_mem (f : Nat → Option (List Nat)) : ∀ (l : List Nat) (bs : List (List Nat)),
    mapOpt f l = some bs → ∀ b ∈ bs, ∃ a ∈ l, f a = some b := by
  intro l
  induction l with
  | nil =>
    intro bs h b hb
    simp only [mapOpt, Option.some.injEq] at h
    subst h
    simp at hb
  | cons x xs ih =>
    intro bs h b hb
    simp only [mapOpt] at h
    cases hf : f x with
    | none => rw [hf] at h; simp at h
    | some y =>
      rw [hf] at h
      cases hm : mapOpt f xs with
      | none => rw [hm] at h; simp at h
      | some ys =>
        rw [hm] at h
        simp only [Option.bind_eq_bind, Option.some_bind, Option.some.injEq] at h
        subst h
        rcases List.mem_cons.mp hb with h1 | h1
        · exact ⟨x, List.mem_cons_self _ _, by rw [hf, h1]⟩
        · obtain ⟨a, ha, hfa⟩ := ih ys hm b h1
          exact ⟨a, List.mem_cons_of_mem _ ha, hfa⟩

/-- A picked head is a member of one of the candidate lists. -/
lemma pickHead_mem (ls : List (List Nat)) (h : Nat) (hp : pickHead ls = some h) :
    ∃ l ∈ ls, h ∈ l := by
  have hmem := List.mem_of_find?_eq_some hp
  obtain ⟨l, hl, hhead⟩ := List.mem_filterMap.mp hmem
  refine ⟨l, hl, ?_⟩
  cases l with
  | nil => simp at hhead
  | cons a tl =>
    simp only [List.head?_cons, Option.some.injEq] at hhead
    subst hhead
    exact List.mem_cons_self _ _

/-- Every element of a C3 merge output occurs in some input list. -/
lemma mergeC3_subset : ∀ (fuel : Nat) (ls : List (List Nat)) (r : List Nat),
    mergeC3 fuel ls = some r → ∀ x ∈ r, ∃ l ∈ ls, x ∈ l := by
  intro fuel
  induction fuel with
  | zero => intro ls r h; simp [mergeC3] at h
  | succ fuel ih =>
    intro ls r h x hx
    rw [mergeC3_succ] at h
    by_cases he : (ls.filter (fun l => !l.isEmpty)).isEmpty
    · rw [if_pos he] at h
      obtain rfl : ([] : List Nat) = r := Option.some.inj h
      simp at hx
    · rw [if_neg he] at h
      cases hp : pickHead (ls.filter (fun l => !l.isEmpty)) with
      | none => rw [hp] at h; simp at h
      | some hd =>
        rw [hp] at h
        simp only [Option.some_bind] at h
        cases hm : mergeC3 fuel ((ls.filter (fun l => !l.isEmpty)).map
            (fun l => l.filter (fun y => !(y == hd)))) with
        | none => rw [hm] at h; simp at h
        | some m =>
          rw [hm] at h
          simp only [Option.map_some', Option.some.injEq] at h
          subst h
          rcases List.mem_cons.mp hx with h1 | h1
          · subst h1
            obtain ⟨l, hl, hmem⟩ := pickHead_mem _ _ hp
            exact ⟨l, List.mem_of_mem_filter hl, hmem⟩
          · obtain ⟨l2, hl2, hx2⟩ := ih _ _ hm x h1
            obtain ⟨l, hl, rfl⟩ := List.mem_map.mp hl2
            exact ⟨l, List.mem_of_mem_filter hl, (List.mem_filter.mp hx2).1⟩

/-- A C3 merge output has no duplicates: once a head is emitted it is
removed from every list. -/
lemma mergeC3_nodup : ∀ (fuel : Nat) (ls : List (List Nat)) (r : List Nat),
    mergeC3 fuel ls = some r → r.Nodup := by
  intro fuel
  induction fuel with
  | zero => intro ls r h; simp [mergeC3] at h
  | succ fuel ih =>
    intro ls r h
    rw [mergeC3_succ] at h
    by_cases he : (ls.filter (fun l => !l.isEmpty)).isEmpty
    · rw [if_pos he] at h
      obtain rfl : ([] : List Nat) = r := Option.some.inj h
      simp
    · rw [if_neg he] at h
      cases hp : pickHead (ls.filter (fun l => !l.isEmpty)) with
      | none => rw [hp] at h; simp at h
      | some hd =>
        rw [hp] at h
        simp only [Option.some_bind] at h
        cases hm : mergeC3 fuel ((ls.filter (fun l => !l.isEmpty)).map
            (fun l => l.filter (fun y => !(y == hd)))) with
        | none => rw [hm] at h; simp at h
        | some m =>
          rw [hm] at h
          simp only [Option.map_some', Option.some.injEq] at h
          subst h
          refine List.nodup_cons.mpr ⟨?_, ih _ _ hm⟩
          intro hmem
          obtain ⟨l2, hl2, hx2⟩ := mergeC3_subset fuel _ m hm hd hmem
          obtain ⟨l, _, rfl⟩ := List.mem_map.mp hl2
          have := (List.mem_filter.mp hx2).2
          simp at this

/-- `mergeC3` at positive fuel only depends on the non-empty input lists. -/
lemma mergeC3_filter (fuel : Nat) (ls : List (List Nat)) :
    mergeC3 (fuel + 1) ls = mergeC3 (fuel + 1) (ls.filter (fun l => !l.isEmpty)) := by
  rw [mergeC3_succ, mergeC3_succ, List.filter_filter]
  simp only [Bool.and_self]

/-- C3 merge of a single duplicate-free list returns it unchanged. -/
lemma mergeC3_singleton : ∀ (fuel : Nat) (l : List Nat), l.Nodup → l.length < fuel →
    mergeC3 fuel [l] = some l := by
  intro fuel
  induction fuel with
  | zero => intro l _ h; exact absurd h (Nat.not_lt_zero _)
  | succ fuel ih =>
    intro l hnd hlen
    rw [mergeC3_succ]
    cases l with
    | nil => simp
    | cons a tl =>
      have ha : a ∉ tl := (List.nodup_cons.mp hnd).1
      have hfil : [a :: tl].filter (fun l => !l.isEmpty) = [a :: tl] := by simp
      rw [hfil]
      have hpick : pickHead [a :: tl] = some a := by
        simp only [pickHead, List.filterMap, List.head?_cons]
        simp [List.find?, headOkay, ha]
      rw [hpick]
      have hfl : (a :: tl).filter (fun x => !(x == a)) = tl := by
        have hrest : List.filter (fun x => !(x == a)) tl = tl :=
          List.filter_eq_self.mpr (fun x hx => by
            have hne : x ≠ a := fun h => ha (h ▸ hx)
            simpa using hne)
        simp [List.filter_cons, hrest]
      simp only [Option.some_bind, List.map_cons, List.map_nil, hfl]
      rw [ih tl (List.nodup_cons.mp hnd).2 (by simpa using Nat.lt_of_succ_lt_succ hlen)]
      rfl

/-- C3 merge of `[p :: m, [p]]` (the single-parent situation in `mroFuel`)
returns `p :: m`. -/
lemma mergeC3_pair : ∀ (fuel p : Nat) (m : List Nat), m.Nodup → p ∉ m →
    m.length + 2 ≤ fuel → mergeC3 fuel [p :: m, [p]] = some (p :: m) := by
  intro fuel p m hnd hpm hlen
  cases fuel with
  | zero => exact absurd hlen (by omega)
  | succ fuel =>
    rw [mergeC3_succ]
    have hfil : [p :: m, [p]].filter (fun l => !l.isEmpty) = [p :: m, [p]] := by simp
    rw [hfil]
    have hpick : pickHead [p :: m, [p]] = some p := by
      simp only [pickHead, List.filterMap, List.head?_cons]
      simp [List.find?, headOkay, hpm]
    rw [hpick]
    have h1 : (p :: m).filter (fun x => !(x == p)) = m := by
      have hrest : List.filter (fun x => !(x == p)) m = m :=
        List.filter_eq_self.mpr (fun x hx => by
          have hne : x ≠ p := fun h => hpm (h ▸ hx)
          simpa using hne)
      simp [List.filter_cons, hrest]
    have h2 : [p].filter (fun x => !(x == p)) = ([] : List Nat) := by simp
    simp only [Option.some_bind, List.map_cons, List.map_nil, h1, h2]
    have hrec : mergeC3 fuel [m, []] = some m := by
      cases fuel with
      | zero => exact absurd hlen (by omega)
      | succ fuel2 =>
        rw [mergeC3_filter]
        by_cases hm : m.isEmpty
        · have : m = [] := by simpa [List.isEmpty_iff] using hm
          subst this
          simp [mergeC3_succ]
        · have : [m, []].filter (fun l => !l.isEmpty) = [m] := by
            simp [hm]
          rw [this]
          exact mergeC3_singleton (fuel2 + 1) m hnd (by
            have : ¬ m = [] := by simpa [List.isEmpty_iff] using hm
            omega)
    rw [hrec]
    simp [List.isEmpty_iff]

/-- `mroFuel` is fuel-insensitive once the fuel exceeds the class index. -/
lemma mroFuel_stable (t : Table) : ∀ (f1 f2 j : Nat), j < f1 → j < f2 →
    mroFuel t f1 j = mroFuel t f2 j := by
  intro f1
  induction f1 with
  | zero => intro f2 j h _; exact absurd h (Nat.not_lt_zero _)
  | succ f1 ih =>
    intro f2 j h1 h2
    cases f2 with
    | zero => exact absurd h2 (Nat.not_lt_zero _)
    | succ f2 =>
      rw [mroFuel_succ, mroFuel_succ]
      cases ht : t[j]? with
      | none => rfl
      | some d =>
        have hcong : mapOpt (mroFuel t f1) (d.parents.filter (fun p => decide (p < j))) =
            mapOpt (mroFuel t f2) (d.parents.filter (fun p => decide (p < j))) := by
          apply mapOpt_congr
          intro p hp
          have hpj : p < j := of_decide_eq_true (List.mem_filter.mp hp).2
          have hpf1 : p < f1 := by omega
          have hpf2 : p < f2 := by omega
          exact ih f2 p hpf1 hpf2
        simp only [Option.some_bind]
        rw [hcong]

/-- A successful `mroFuel t fuel j` starts with `j`, is duplicate-free, and
its tail holds only smaller class indices (parents are always declared
earlier). -/
lemma mroFuel_shape (t : Table) : ∀ (fuel j : Nat) (l : List Nat),
    mroFuel t fuel j = some l →
    ∃ m, l = j :: m ∧ m.Nodup ∧ ∀ x ∈ m, x < j := by
  intro fuel
  induction fuel with
  | zero => intro j l h; simp [mroFuel] at h
  | succ fuel ih =>
    intro j l h
    rw [mroFuel_succ] at h
    cases ht : t[j]? with
    | none => rw [ht] at h; simp at h
    | some d =>
      rw [ht] at h
      simp only [Option.some_bind] at h
      cases hmo : mapOpt (mroFuel t fuel) (d.parents.filter (fun p => decide (p < j))) with
      | none => rw [hmo] at h; simp at h
      | some pls =>
        rw [hmo] at h
        simp only [Option.some_bind] at h
        cases hmg : mergeC3
            (((pls ++ [d.parents.filter (fun p => decide (p < j))]).map List.length).sum + 1)
            (pls ++ [d.parents.filter (fun p => decide (p < j))]) with
        | none => rw [hmg] at h; simp at h
        | some m =>
          rw [hmg] at h
          simp only [Option.map_some', Option.some.injEq] at h
          subst h
          refine ⟨m, rfl, mergeC3_nodup _ _ _ hmg, ?_⟩
          intro x hx
          obtain ⟨li, hli, hxli⟩ := mergeC3_subset _ _ _ hmg x hx
          rcases List.mem_append.mp hli with hl1 | hl1
          · obtain ⟨p, hp, hfp⟩ := mapOpt_mem _ _ _ hmo li hl1
            have hpj : p < j := of_decide_eq_true (List.mem_filter.mp hp).2
            obtain ⟨m2, rfl, _, hm2⟩ := ih p li hfp
            rcases List.mem_cons.mp hxli with h2 | h2
            · omega
            · have := hm2 x h2
              omega
          · have : li = d.parents.filter (fun p => decide (p < j)) := by
              simpa using hl1
            subst this
            exact of_decide_eq_true (List.mem_filter.mp hxli).2

/-- Well-formedness gives `p < i` for every parent `p` of entry `i`. -/
lemma wfB_parent_lt (t : Table) (hw : wfB t = true) (i : Nat) (d : ClassDecl)
    (hd : t[i]? = some d) : ∀ p ∈ d.parents, p < i := by
  intro p hp
  have hi : i < t.length := by
    by_contra hge
    rw [List.getElem?_eq_none (by omega)] at hd
    exact Option.noConfusion hd
  have hall := (List.all_eq_true.mp hw) i (List.mem_range.mpr hi)
  rw [hd] at hall
  exact of_decide_eq_true ((List.all_eq_true.mp hall) p hp)

/-- C4 amended: in every well-formed table, a variant declared with a
single parent and no explicit `exit_status` resolves `exit_status` to
exactly what its parent resolves it to — Python's attribute lookup steps
from the class to its sole base, so single-parent inheritance is exact and
composes transitively.  (With several declared parents the code follows
the C3 method-resolution order instead, which the counterexample shows can
disagree with the first declared parent.) -/
theorem inherit_single_parent (t : Table) (i p : Nat) (d : ClassDecl)
    (hw : wfB t = true) (hd : t[i]? = some d) (hes : d.exit_status = none)
    (hp : d.parents = [p]) (_hne : p ≠ 1) :
    exitStatusOf t i = exitStatusOf t p := by
  have hlt : p < i := wfB_parent_lt t hw i d hd p (by rw [hp]; exact List.mem_cons_self _ _)
  have hps : d.parents.filter (fun q => decide (q < i)) = [p] := by
    rw [hp]
    simp [hlt]
  have hst : mroFuel t i p = mroFuel t (p + 1) p :=
    mroFuel_stable t i (p + 1) p hlt (Nat.lt_succ_self p)
  show (mroFuel t (i + 1) i).bind (attrAlong t (fun d => d.exit_status)) =
    (mroFuel t (p + 1) p).bind (attrAlong t (fun d => d.exit_status))
  rw [mroFuel_succ, hd]
  simp only [Option.some_bind, hps]
  cases hmp : mroFuel t (p + 1) p with
  | none =>
    rw [show mapOpt (mroFuel t i) [p] = none by
      simp only [mapOpt, hst, hmp]
      rfl]
    rfl
  | some l =>
    obtain ⟨m, rfl, hnd, hlt2⟩ := mroFuel_shape t (p + 1) p l hmp
    have hpm : p ∉ m := fun hmem => absurd (hlt2 p hmem) (lt_irrefl p)
    rw [show mapOpt (mroFuel t i) [p] = some [p :: m] by
      simp only [mapOpt, hst, hmp]
      rfl]
    simp only [Option.some_bind]
    have hmerge : mergeC3 ((([p :: m] ++ [[p]]).map List.length).sum + 1)
        ([p :: m] ++ [[p]]) = some (p :: m) := by
      refine mergeC3_pair _ p m hnd hpm ?_
      simp
    rw [hmerge]
    simp only [Option.map_some', Option.some_bind]
    simp only [attrAlong, hd, hes]

/-- C4 amended witness: `BarAbortVariant` (index 5, sole parent `BarAbort`
at index 4, no explicit status) resolves the same exit status as
`BarAbort`. -/
theorem inherit_single_parent_witness :
    wfB testT = true ∧ exitStatusOf testT 5 = exitStatusOf testT 4 :=
  ⟨by decide,
   inherit_single_parent testT 5 4
     ⟨[4], none, some "A specific type of BarAbort".data, none, none⟩
     (by decide) (by decide) (by decide) (by decide) (by decide)⟩

end Userexit
